import Mathlib

/-!
Shallow embedding of `src/theme_matcher.py` (playlist-fetch repository).

Modelling conventions:
* Python strings are Lean `String`s; character-level work is done on `String.data`
  (a `List Char`).  Python's `str.lower()` is modelled by mapping `Char.toLower`
  over the characters (faithful for ASCII data, which is what the matcher's
  word-character logic is about anyway).
* A Python dict of track fields is an association list `List (String × String)`;
  `dict.get(k, '')` is `trackGet`.
* Python sets of strings are modelled as duplicate-free lists built with `setAdd`
  (Python set iteration order is unspecified; all set-level claims are stated
  up to membership, and the scoring fold is order-independent in the score).
* `re.search(r'\b' + re.escape(kw) + r'\b', text, re.IGNORECASE)` is modelled by
  scanning every position of the text for a case-insensitive occurrence of the
  literal `kw` flanked by regex word boundaries (`boundaryAt`): a position is a
  boundary when exactly one of the two adjacent characters is a word character
  (`[A-Za-z0-9_]`, the ASCII reading of `\w`); a string edge counts as non-word.
* `list.sort(key=...)` (a stable sort) is modelled by the stable insertion sort
  `stableSort`.
* The Python `KeyError` that `score_track` can raise on `location_matches[f]`
  for a field outside `{name, artist, album}` is modelled by `Option`
  (`none` = the call raises).
-/

namespace ThemeMatcher

/-- Default character used with `List.getD`; out-of-range reads stand for the
absence of a character (a string edge). -/
def padChar : Char := Char.ofNat 32

/-- Regex word character for Python `\b`: ASCII alphanumeric or underscore. -/
def isWordChar (c : Char) : Bool := c.isAlphanum || c == '_'

/-- Python `str.lower()` on the character list of a string (ASCII case map). -/
def lowerChars (s : List Char) : List Char := s.map Char.toLower

/-- Python `str.lower()` as a `String` operation. -/
def lowerString (s : String) : String := ⟨lowerChars s.data⟩

/-- Is the character at index `i` of `t` a word character?  Out of range
(string edge) counts as non-word. -/
def isWordAt (t : List Char) (i : Nat) : Bool :=
  match t.getD i padChar, decide (i < t.length) with
  | c, true => isWordChar c
  | _, false => false

/-- Python regex `\b` at position `i` of `t` (positions `0 … t.length`):
exactly one of the adjacent characters is a word character. -/
def boundaryAt (t : List Char) (i : Nat) : Bool :=
  (if i = 0 then false else isWordAt t (i - 1)) != isWordAt t i

/-- Case-insensitive occurrence of the literal `k` at position `i` of `t`
(the `re.IGNORECASE` match of the escaped keyword). -/
def ciMatchAt (t k : List Char) (i : Nat) : Bool :=
  decide (i + k.length ≤ t.length) &&
    (List.range k.length).all fun j =>
      Char.toLower (t.getD (i + j) padChar) == Char.toLower (k.getD j padChar)

/-- Case-sensitive occurrence of `k` at position `i` of `t` (Python `in`). -/
def exactMatchAt (t k : List Char) (i : Nat) : Bool :=
  decide (i + k.length ≤ t.length) &&
    (List.range k.length).all fun j => t.getD (i + j) padChar == k.getD j padChar

/-- `re.search(r'\b' + re.escape(k) + r'\b', t, re.IGNORECASE)` succeeds. -/
def fullWordSearch (t k : List Char) : Bool :=
  (List.range (t.length + 1)).any fun i =>
    ciMatchAt t k i && boundaryAt t i && boundaryAt t (i + k.length)

/-- Python `k in t` (substring containment of character lists). -/
def containsSub (t k : List Char) : Bool :=
  (List.range (t.length + 1)).any fun i => exactMatchAt t k i

/-- The loop body of `find_matches_in_text` for one keyword: first the
word-boundary regex, then plain substring containment, else nothing. -/
def classifyKeyword (textL : List Char) (kw : String) : Option (String × Bool) :=
  if fullWordSearch textL kw.data then some (kw, true)
  else if containsSub textL kw.data then some (kw, false)
  else none

/-- `find_matches_in_text` from `theme_matcher.py`: empty text yields no
matches; otherwise each keyword is classified against the lowercased text,
giving at most one `(keyword, is_full_word)` entry per keyword. -/
def find_matches_in_text (text : String) (keywords : List String) :
    List (String × Bool) :=
  if text = "" then []
  else keywords.filterMap (classifyKeyword (lowerChars text.data))

/-- Python `set.add` on the list model of a set (no-op when present). -/
def setAdd (s : List String) (x : String) : List String :=
  if x ∈ s then s else s ++ [x]

/-- `expand_keywords_with_synonyms` from `theme_matcher.py`: each keyword is
lowercased and added; when the lowercased keyword is a key of the synonym
map, every synonym is added lowercased.  One hop only. -/
def expand_keywords_with_synonyms (keywords : List String)
    (synonyms : List (String × List String)) : List String :=
  keywords.foldl (fun acc keyword =>
    let kl := lowerString keyword
    let acc := setAdd acc kl
    match synonyms.lookup kl with
    | some syns => syns.foldl (fun a s => setAdd a (lowerString s)) acc
    | none => acc) []

/-- A track dictionary: association list of field name to string value
(`dict.get(k, '')` with unique keys; first binding wins). -/
abbrev Track := List (String × String)

/-- Python `track.get(field, '')`. -/
def trackGet (t : Track) (f : String) : String :=
  ((List.lookup f t).getD "")

/-- Python `track_copy[k] = v` on a dict: replace the binding when the key is
present, append it otherwise. -/
def dictSet (t : Track) (k v : String) : Track :=
  if (List.lookup k t).isSome then
    t.map fun p => if p.1 == k then (k, v) else p
  else t ++ [(k, v)]

/-- The three field slots of `location_matches` in `score_track`. -/
inductive Slot | name | artist | album
deriving DecidableEq, Repr

/-- The dict key of a slot. -/
def slotName : Slot → String
  | .name => "name"
  | .artist => "artist"
  | .album => "album"

/-- Which slot of `location_matches` a field name addresses (`none` means the
dict access `location_matches[field]` raises `KeyError`). -/
def fieldSlot (f : String) : Option Slot :=
  if f = "name" then some .name
  else if f = "artist" then some .artist
  else if f = "album" then some .album
  else none

/-- Mutable state of the `score_track` loop. -/
structure ScoreState where
  total : Nat
  matched : List String
  locName : List String
  locArtist : List String
  locAlbum : List String
  fullWords : List String
deriving Repr

/-- Initial `score_track` state. -/
def initState : ScoreState := ⟨0, [], [], [], [], []⟩

/-- One iteration of the inner loop of `score_track` for a `(keyword,
is_full_word)` pair found in the field of slot `slot` with multiplier `w`. -/
def applyMatch (slot : Slot) (w : Nat) (st : ScoreState) (m : String × Bool) :
    ScoreState :=
  let st := { st with matched := setAdd st.matched m.1 }
  let st :=
    match slot with
    | .name => { st with locName := st.locName ++ [m.1] }
    | .artist => { st with locArtist := st.locArtist ++ [m.1] }
    | .album => { st with locAlbum := st.locAlbum ++ [m.1] }
  if m.2 then { st with total := st.total + 2 * w, fullWords := setAdd st.fullWords m.1 }
  else { st with total := st.total + 1 * w }

/-- Stable insertion: place `x` after every element strictly smaller under
`lt`, before the first element that is not. -/
def insertKey (lt : α → α → Bool) (x : α) : List α → List α
  | [] => [x]
  | y :: ys => if lt y x then y :: insertKey lt x ys else x :: y :: ys

/-- Stable insertion sort; the model of Python's stable `list.sort` /
`sorted` with a comparison `lt` derived from the sort key. -/
def stableSort (lt : α → α → Bool) : List α → List α
  | [] => []
  | x :: xs => insertKey lt x (stableSort lt xs)

/-- Python `sorted()` over a set of strings (ascending code-point order). -/
def sortedStrings (l : List String) : List String :=
  stableSort (fun a b => decide (a < b)) l

/-- The `match_details` dict built by `score_track`; `matched_keywords`
models the `'matches'` key (`matches` is a Lean keyword). -/
structure MatchDetails where
  matched_keywords : List String
  locations : List (String × List String)
  full_word_matches : List String
  score : Nat
deriving DecidableEq, Repr

/-- Build the final `(total_score, match_details)` pair from the loop state. -/
def finalize (st : ScoreState) : Nat × MatchDetails :=
  (st.total,
    { matched_keywords := sortedStrings st.matched
      locations :=
        [("name", st.locName), ("artist", st.locArtist),
         ("album", st.locAlbum)].filter fun p => !p.2.isEmpty
      full_word_matches := sortedStrings st.fullWords
      score := st.total })

/-- The body of the field loop of `score_track` for a field of slot `slot`:
skip empty field values, otherwise fold the matcher results. -/
def fieldStep (track : Track) (keywords : List String) (st : ScoreState)
    (slot : Slot) (w : Nat) : ScoreState :=
  let v := trackGet track (slotName slot)
  if v = "" then st
  else (find_matches_in_text v keywords).foldl (applyMatch slot w) st

/-- The default `location_multipliers` dict `{'name': 3, 'artist': 2,
'album': 1}` in its insertion order, with the slot of each field. -/
def defaultSlots : List (Slot × Nat) := [(.name, 3), (.artist, 2), (.album, 1)]

/-- The final loop state of `score_track` under the default multipliers. -/
def scoreState (track : Track) (keywords : List String) : ScoreState :=
  defaultSlots.foldl (fun st p => fieldStep track keywords st p.1 p.2) initState

/-- `score_track` from `theme_matcher.py` with the default multipliers
(`location_multipliers=None`), where the field loop is total. -/
def score_track (track : Track) (keywords : List String) : Nat × MatchDetails :=
  finalize (scoreState track keywords)

/-- The body of the field loop of `score_track` for an arbitrary
`(field_name, multiplier)` pair: skip empty field values; for a known field
fold the matcher results; for any other field the first match triggers the
`KeyError` of `location_matches[field_name]` (`none`). -/
def stepWith (track : Track) (keywords : List String) (st : ScoreState)
    (p : String × Nat) : Option ScoreState :=
  let v := trackGet track p.1
  if v = "" then some st
  else
    let ms := find_matches_in_text v keywords
    match fieldSlot p.1 with
    | some slot => some (ms.foldl (applyMatch slot p.2) st)
    | none => if ms.isEmpty then some st else none

/-- `score_track` with an explicit `location_multipliers` association list.
A field outside `{name, artist, album}` whose value yields at least one match
makes `location_matches[field_name]` raise `KeyError`, modelled as `none`. -/
def score_track_with (track : Track) (keywords : List String)
    (mults : List (String × Nat)) : Option (Nat × MatchDetails) :=
  (mults.foldlM (stepWith track keywords) initState).map finalize

/-- A synonym map: Python dict of keyword to synonym list. -/
abbrev SynMap := List (String × List String)

/-- The Python set comprehension `{k.lower() for k in keywords}`. -/
def lowerSet (keywords : List String) : List String :=
  keywords.foldl (fun acc k => setAdd acc (lowerString k)) []

/-- The effective term set of `find_matching_tracks`: Python `if synonyms:`
is true only for a provided, non-empty dict. -/
def effectiveKeywords (keywords : List String) (synonyms : Option SynMap) :
    List String :=
  match synonyms with
  | some syn =>
      if syn.isEmpty then lowerSet keywords
      else expand_keywords_with_synonyms keywords syn
  | none => lowerSet keywords

/-- The sort key comparison of `find_matching_tracks`: Python tuple key
`(-score, track.get('name', '').lower())`, compared lexicographically. -/
def rankLt (a b : Track × MatchDetails) : Bool :=
  decide (b.2.score < a.2.score) ||
    (a.2.score == b.2.score &&
      decide (lowerString (trackGet a.1 "name") < lowerString (trackGet b.1 "name")))

/-- `find_matching_tracks` from `theme_matcher.py`: expand keywords, score
every track, keep scores `≥ min_score`, sort by `(-score, lowercased name)`
with Python's stable sort. -/
def find_matching_tracks (tracks : List Track) (keywords : List String)
    (synonyms : Option SynMap) (min_score : Int) : List (Track × MatchDetails) :=
  let expanded := effectiveKeywords keywords synonyms
  let matching := tracks.foldl (fun acc track =>
      let r := score_track track expanded
      if min_score ≤ (r.1 : Int) then acc ++ [(track, r.2)] else acc) []
  stableSort rankLt matching

/-- Outcome of `json.load` + the `isinstance(…, list)` check on one file. -/
inductive FileContent
  | malformed
  | nonList
  | trackList (ts : List Track)

/-- A JSON file of the data directory: base name (stem) and parse outcome. -/
structure JsonFile where
  stem : String
  content : FileContent

/-- `track_copy['playlist'] = playlist_name` on a copy of the track. -/
def tagTrack (t : Track) (pl : String) : Track := dictSet t "playlist" pl

/-- `load_tracks_from_json_files` from `theme_matcher.py`.  The directory is
`none` when it does not exist; otherwise the enumerated JSON files in
order.  Malformed files and files whose top level is not a list are
skipped; tracks of list files are appended in order, tagged with the stem. -/
def load_tracks_from_json_files (dir : Option (List JsonFile)) : List Track :=
  match dir with
  | none => []
  | some files =>
      files.foldl (fun acc f =>
        match f.content with
        | .trackList ts => ts.foldl (fun acc t => acc ++ [tagTrack t f.stem]) acc
        | _ => acc) []

/-! ### Specification-side predicates

These are written from the spec's and claims' words, to be compared with the
definitions translated from the source. -/

/-- Spec wording (amended C2): the term occurs in the text case-insensitively,
bounded on both sides by word boundaries, where the flanking characters (when
inside the string) are non-word characters (not alphanumeric, not underscore).
Boundaries are read off the raw text. -/
def SpecFullWord (text term : String) : Prop :=
  ∃ i, i + term.data.length ≤ text.data.length ∧
    (∀ j, j < term.data.length →
      Char.toLower (text.data.getD (i + j) padChar) =
        Char.toLower (term.data.getD j padChar)) ∧
    (i = 0 ∨ isWordChar (text.data.getD (i - 1) padChar) = false) ∧
    (i + term.data.length = text.data.length ∨
      isWordChar (text.data.getD (i + term.data.length) padChar) = false)

/-- Claim C2 as stated: the flanking characters are merely non-alphanumeric
(underscore would qualify as a boundary). -/
def ClaimFullWord (text term : String) : Prop :=
  ∃ i, i + term.data.length ≤ text.data.length ∧
    (∀ j, j < term.data.length →
      Char.toLower (text.data.getD (i + j) padChar) =
        Char.toLower (term.data.getD j padChar)) ∧
    (i = 0 ∨ (text.data.getD (i - 1) padChar).isAlphanum = false) ∧
    (i + term.data.length = text.data.length ∨
      (text.data.getD (i + term.data.length) padChar).isAlphanum = false)

/-- Spec wording: the term occurs as a plain substring of the (lowercased)
text. -/
def SpecSubstring (text term : String) : Prop :=
  term.data <:+: lowerChars text.data

/-- Claim C4 as stated: the expanded set holds the case-folded input keywords
and, for each input keyword that is (itself, as written) a key of the map, the
case-folded values of its synonym list. -/
def ClaimExpandMem (keywords : List String) (synonyms : SynMap) (t : String) :
    Prop :=
  (∃ k ∈ keywords, lowerString k = t) ∨
  (∃ k ∈ keywords, ∃ v ∈ (synonyms.lookup k).getD [], lowerString v = t)

/-- Claim C3's ordering: score descending, ties by case-insensitively
compared track name ascending. -/
def SortKeyLe (a b : Track × MatchDetails) : Prop :=
  b.2.score < a.2.score ∨
    (a.2.score = b.2.score ∧
      lowerString (trackGet a.1 "name") ≤ lowerString (trackGet b.1 "name"))

/-- Claim C3's effective term set: the synonym expansion when a synonym map
is provided, the lowercased keywords otherwise. -/
def ClaimEffectiveTerms (keywords : List String) (synonyms : Option SynMap) :
    List String :=
  match synonyms with
  | some syn => expand_keywords_with_synonyms keywords syn
  | none => keywords.map lowerString

/-! ### Character-level lemmas -/

theorem toNat_ofNat_valid (n : Nat) (h : n.isValidChar) :
    (Char.ofNat n).toNat = n := by
  unfold Char.ofNat
  rw [dif_pos h]
  unfold Char.ofNatAux Char.toNat UInt32.toNat
  simp [BitVec.toNat_ofNatLt]

theorem char_toNat_underscore (c : Char) : (c == '_') = true ↔ c.toNat = 95 := by
  rw [beq_iff_eq]
  constructor
  · intro h; rw [h]; rfl
  · intro h; apply Char.ext; apply UInt32.ext; exact h

theorem isUpper_iff (c : Char) : c.isUpper = true ↔ 65 ≤ c.toNat ∧ c.toNat ≤ 90 := by
  unfold Char.isUpper
  rw [Bool.and_eq_true, decide_eq_true_eq, decide_eq_true_eq]
  exact Iff.rfl

theorem isLower_iff (c : Char) : c.isLower = true ↔ 97 ≤ c.toNat ∧ c.toNat ≤ 122 := by
  unfold Char.isLower
  rw [Bool.and_eq_true, decide_eq_true_eq, decide_eq_true_eq]
  exact Iff.rfl

theorem isDigit_iff (c : Char) : c.isDigit = true ↔ 48 ≤ c.toNat ∧ c.toNat ≤ 57 := by
  unfold Char.isDigit
  rw [Bool.and_eq_true, decide_eq_true_eq, decide_eq_true_eq]
  exact Iff.rfl

theorem isWordChar_iff (c : Char) : isWordChar c = true ↔
    (48 ≤ c.toNat ∧ c.toNat ≤ 57) ∨ (65 ≤ c.toNat ∧ c.toNat ≤ 90) ∨
    (97 ≤ c.toNat ∧ c.toNat ≤ 122) ∨ c.toNat = 95 := by
  unfold isWordChar Char.isAlphanum Char.isAlpha
  rw [Bool.or_eq_true, Bool.or_eq_true, Bool.or_eq_true,
    isUpper_iff, isLower_iff, isDigit_iff, char_toNat_underscore]
  tauto

theorem toLower_of_upper (c : Char) (h : 65 ≤ c.toNat ∧ c.toNat ≤ 90) :
    c.toLower.toNat = c.toNat + 32 := by
  unfold Char.toLower
  rw [if_pos ⟨h.1, h.2⟩]
  apply toNat_ofNat_valid
  left
  omega

theorem toLower_of_not_upper (c : Char) (h : ¬(65 ≤ c.toNat ∧ c.toNat ≤ 90)) :
    c.toLower = c := by
  unfold Char.toLower
  rw [if_neg]
  intro hc
  exact h ⟨hc.1, hc.2⟩

theorem isWordChar_toLower (c : Char) : isWordChar c.toLower = isWordChar c := by
  rw [Bool.eq_iff_iff, isWordChar_iff, isWordChar_iff]
  by_cases h : 65 ≤ c.toNat ∧ c.toNat ≤ 90
  · rw [toLower_of_upper c h]; omega
  · rw [toLower_of_not_upper c h]

theorem toLower_idem (c : Char) : c.toLower.toLower = c.toLower := by
  by_cases h : 65 ≤ c.toNat ∧ c.toNat ≤ 90
  · apply toLower_of_not_upper
    rw [toLower_of_upper c h]
    omega
  · rw [toLower_of_not_upper c h, toLower_of_not_upper c h]

/-! ### Word-boundary search lemmas -/

theorem toLower_padChar : Char.toLower padChar = padChar := by decide

theorem length_lowerChars (s : List Char) : (lowerChars s).length = s.length :=
  List.length_map s Char.toLower

theorem getD_eq_default (l : List Char) (i : Nat) (h : l.length ≤ i) :
    l.getD i padChar = padChar := by
  unfold List.getD
  rw [List.get?_eq_none.mpr (by omega)]
  rfl

theorem getD_lowerChars (s : List Char) (i : Nat) :
    (lowerChars s).getD i padChar = Char.toLower (s.getD i padChar) := by
  by_cases h : i < s.length
  · have h2 : i < (lowerChars s).length := by rw [length_lowerChars]; exact h
    rw [List.getD_eq_getElem _ _ h2, List.getD_eq_getElem _ _ h]
    simp [lowerChars]
  · rw [getD_eq_default _ _ (by rw [length_lowerChars]; omega),
      getD_eq_default _ _ (by omega), toLower_padChar]

theorem isWordAt_eq (t : List Char) (i : Nat) :
    isWordAt t i = if i < t.length then isWordChar (t.getD i padChar) else false := by
  unfold isWordAt
  by_cases h : i < t.length <;> simp [h]

theorem isWordAt_lowerChars (t : List Char) (i : Nat) :
    isWordAt (lowerChars t) i = isWordAt t i := by
  rw [isWordAt_eq, isWordAt_eq, length_lowerChars, getD_lowerChars, isWordChar_toLower]

theorem boundaryAt_lowerChars (t : List Char) (i : Nat) :
    boundaryAt (lowerChars t) i = boundaryAt t i := by
  unfold boundaryAt
  rw [isWordAt_lowerChars, isWordAt_lowerChars]

theorem ciMatchAt_iff (t k : List Char) (i : Nat) : ciMatchAt t k i = true ↔
    i + k.length ≤ t.length ∧ ∀ j, j < k.length →
      Char.toLower (t.getD (i + j) padChar) = Char.toLower (k.getD j padChar) := by
  unfold ciMatchAt
  simp only [Bool.and_eq_true, decide_eq_true_eq, List.all_eq_true, List.mem_range,
    beq_iff_eq]

theorem exactMatchAt_iff (t k : List Char) (i : Nat) : exactMatchAt t k i = true ↔
    i + k.length ≤ t.length ∧ ∀ j, j < k.length →
      t.getD (i + j) padChar = k.getD j padChar := by
  unfold exactMatchAt
  simp only [Bool.and_eq_true, decide_eq_true_eq, List.all_eq_true, List.mem_range,
    beq_iff_eq]

theorem fullWordSearch_iff_exists (t k : List Char) : fullWordSearch t k = true ↔
    ∃ i, i ≤ t.length ∧ ciMatchAt t k i = true ∧ boundaryAt t i = true ∧
      boundaryAt t (i + k.length) = true := by
  unfold fullWordSearch
  simp only [List.any_eq_true, List.mem_range, Bool.and_eq_true]
  constructor
  · rintro ⟨i, hi, ⟨h1, h2⟩, h3⟩; exact ⟨i, by omega, h1, h2, h3⟩
  · rintro ⟨i, hi, h1, h2, h3⟩; exact ⟨i, by omega, ⟨h1, h2⟩, h3⟩

theorem segment_eq_of_pointwise (t k : List Char) (i : Nat)
    (hb : i + k.length ≤ t.length)
    (hp : ∀ j, j < k.length → t.getD (i + j) padChar = k.getD j padChar) :
    (t.drop i).take k.length = k := by
  apply List.ext_getElem
  · rw [List.length_take, List.length_drop]; omega
  · intro n h1 h2
    rw [List.getElem_take, List.getElem_drop,
      ← List.getD_eq_getElem t padChar (by omega), ← List.getD_eq_getElem k padChar h2]
    exact hp n h2

theorem pointwise_of_append (p k s : List Char) (j : Nat) (hj : j < k.length) :
    (p ++ k ++ s).getD (p.length + j) padChar = k.getD j padChar := by
  have hlen : p.length + j < (p ++ k ++ s).length := by
    simp only [List.length_append]; omega
  rw [List.getD_eq_getElem _ _ hlen, List.getD_eq_getElem k padChar hj]
  rw [List.getElem_append_left (by simp only [List.length_append]; omega)]
  rw [List.getElem_append_right (by omega)]
  congr 1
  omega

theorem containsSub_iff_infix (t k : List Char) : containsSub t k = true ↔ k <:+: t := by
  unfold containsSub
  simp only [List.any_eq_true, List.mem_range]
  constructor
  · rintro ⟨i, hi, h⟩
    rw [exactMatchAt_iff] at h
    obtain ⟨hb, hp⟩ := h
    refine ⟨t.take i, t.drop (i + k.length), ?_⟩
    have hseg := segment_eq_of_pointwise t k i hb hp
    have h2 : t.drop (i + k.length) = (t.drop i).drop k.length := by
      rw [List.drop_drop]
    have h1 := List.take_append_drop k.length (t.drop i)
    rw [hseg, ← h2] at h1
    rw [List.append_assoc, h1, List.take_append_drop]
  · rintro ⟨p, s, hps⟩
    refine ⟨p.length, ?_, ?_⟩
    · have := congrArg List.length hps
      simp only [List.length_append] at this
      omega
    · rw [exactMatchAt_iff]
      constructor
      · have := congrArg List.length hps
        simp only [List.length_append] at this
        omega
      · intro j hj
        rw [← hps]
        exact pointwise_of_append p k s j hj

theorem isWordAt_of_occurrence (text term : String) (i j : Nat)
    (hj : j < term.data.length)
    (hbound : i + term.data.length ≤ text.data.length)
    (hocc : ∀ j, j < term.data.length →
      Char.toLower (text.data.getD (i + j) padChar) =
        Char.toLower (term.data.getD j padChar))
    (hlow : ∀ j, j < term.data.length →
      Char.toLower (term.data.getD j padChar) = term.data.getD j padChar)
    (hw : isWordChar (term.data.getD j padChar) = true) :
    isWordAt text.data (i + j) = true := by
  rw [isWordAt_eq, if_pos (by omega), ← isWordChar_toLower, hocc j hj, hlow j hj]
  exact hw

theorem fullWordSearch_iff_spec (text term : String)
    (hk : term.data ≠ [])
    (hlow : ∀ j, j < term.data.length →
      Char.toLower (term.data.getD j padChar) = term.data.getD j padChar)
    (hhead : isWordChar (term.data.getD 0 padChar) = true)
    (hlast : isWordChar (term.data.getD (term.data.length - 1) padChar) = true) :
    fullWordSearch (lowerChars text.data) term.data = true ↔ SpecFullWord text term := by
  have hn : 0 < term.data.length := List.length_pos.mpr hk
  rw [fullWordSearch_iff_exists]
  unfold SpecFullWord
  constructor
  · rintro ⟨i, hi, hci, hb1, hb2⟩
    rw [ciMatchAt_iff, length_lowerChars] at hci
    obtain ⟨hbound, hpt⟩ := hci
    rw [boundaryAt_lowerChars] at hb1 hb2
    have hocc : ∀ j, j < term.data.length →
        Char.toLower (text.data.getD (i + j) padChar) =
          Char.toLower (term.data.getD j padChar) := by
      intro j hj
      have h := hpt j hj
      rw [getD_lowerChars, toLower_idem] at h
      exact h
    have hw0 : isWordAt text.data i = true := by
      have := isWordAt_of_occurrence text term i 0 hn hbound hocc hlow hhead
      rwa [Nat.add_zero] at this
    have hwlast : isWordAt text.data (i + term.data.length - 1) = true := by
      have := isWordAt_of_occurrence text term i (term.data.length - 1)
        (by omega) hbound hocc hlow hlast
      have he : i + (term.data.length - 1) = i + term.data.length - 1 := by omega
      rwa [he] at this
    refine ⟨i, hbound, hocc, ?_, ?_⟩
    · unfold boundaryAt at hb1
      rw [hw0] at hb1
      by_cases h0 : i = 0
      · exact Or.inl h0
      · right
        rw [if_neg h0] at hb1
        have hfalse : isWordAt text.data (i - 1) = false := by
          cases hx : isWordAt text.data (i - 1)
          · rfl
          · rw [hx] at hb1; simp at hb1
        rw [isWordAt_eq, if_pos (by omega)] at hfalse
        exact hfalse
    · unfold boundaryAt at hb2
      have hne0 : ¬(i + term.data.length = 0) := by omega
      rw [if_neg hne0, hwlast] at hb2
      have hfalse : isWordAt text.data (i + term.data.length) = false := by
        cases hx : isWordAt text.data (i + term.data.length)
        · rfl
        · rw [hx] at hb2; simp at hb2
      by_cases hend : i + term.data.length = text.data.length
      · exact Or.inl hend
      · right
        rw [isWordAt_eq, if_pos (by omega)] at hfalse
        exact hfalse
  · rintro ⟨i, hbound, hocc, hbl, hbr⟩
    have hw0 : isWordAt text.data i = true := by
      have := isWordAt_of_occurrence text term i 0 hn hbound hocc hlow hhead
      rwa [Nat.add_zero] at this
    have hwlast : isWordAt text.data (i + term.data.length - 1) = true := by
      have := isWordAt_of_occurrence text term i (term.data.length - 1)
        (by omega) hbound hocc hlow hlast
      have he : i + (term.data.length - 1) = i + term.data.length - 1 := by omega
      rwa [he] at this
    refine ⟨i, by rw [length_lowerChars]; omega, ?_, ?_, ?_⟩
    · rw [ciMatchAt_iff, length_lowerChars]
      refine ⟨hbound, ?_⟩
      intro j hj
      rw [getD_lowerChars, toLower_idem]
      exact hocc j hj
    · rw [boundaryAt_lowerChars]
      unfold boundaryAt
      rw [hw0]
      rcases hbl with h0 | hnw
      · rw [if_pos h0]; rfl
      · by_cases h0 : i = 0
        · rw [if_pos h0]; rfl
        · rw [if_neg h0, isWordAt_eq, if_pos (by omega), hnw]; rfl
    · rw [boundaryAt_lowerChars]
      unfold boundaryAt
      have hne0 : ¬(i + term.data.length = 0) := by omega
      rw [if_neg hne0, hwlast]
      rcases hbr with hend | hnw
      · rw [isWordAt_eq, if_neg (by omega)]; rfl
      · by_cases hin : i + term.data.length < text.data.length
        · rw [isWordAt_eq, if_pos hin, hnw]; rfl
        · rw [isWordAt_eq, if_neg hin]; rfl

theorem classify_true_iff (textL : List Char) (a kw : String) :
    classifyKeyword textL a = some (kw, true) ↔
      a = kw ∧ fullWordSearch textL a.data = true := by
  unfold classifyKeyword
  split
  · simp [*]
  · split <;> simp [*]

theorem classify_false_iff (textL : List Char) (a kw : String) :
    classifyKeyword textL a = some (kw, false) ↔
      a = kw ∧ fullWordSearch textL a.data = false ∧ containsSub textL a.data = true := by
  unfold classifyKeyword
  split
  · simp [*]
  · split <;> simp [*]

theorem mem_find_matches_true (text : String) (kws : List String) (kw : String) :
    (kw, true) ∈ find_matches_in_text text kws ↔
      text ≠ "" ∧ kw ∈ kws ∧ fullWordSearch (lowerChars text.data) kw.data = true := by
  unfold find_matches_in_text
  split
  · rename_i h
    simp [h]
  · rename_i h
    rw [List.mem_filterMap]
    constructor
    · rintro ⟨a, ha, hc⟩
      rw [classify_true_iff] at hc
      obtain ⟨rfl, hf⟩ := hc
      exact ⟨h, ha, hf⟩
    · rintro ⟨_, ha, hf⟩
      exact ⟨kw, ha, (classify_true_iff _ _ _).mpr ⟨rfl, hf⟩⟩

theorem mem_find_matches_false (text : String) (kws : List String) (kw : String) :
    (kw, false) ∈ find_matches_in_text text kws ↔
      text ≠ "" ∧ kw ∈ kws ∧ fullWordSearch (lowerChars text.data) kw.data = false ∧
        containsSub (lowerChars text.data) kw.data = true := by
  unfold find_matches_in_text
  split
  · rename_i h
    simp [h]
  · rename_i h
    rw [List.mem_filterMap]
    constructor
    · rintro ⟨a, ha, hc⟩
      rw [classify_false_iff] at hc
      obtain ⟨rfl, hf⟩ := hc
      exact ⟨h, ha, hf⟩
    · rintro ⟨_, ha, hf, hc⟩
      exact ⟨kw, ha, (classify_false_iff _ _ _).mpr ⟨rfl, hf, hc⟩⟩

theorem classifyKeyword_key (textL : List Char) (a : String) (m : String × Bool)
    (h : classifyKeyword textL a = some m) : m.1 = a := by
  unfold classifyKeyword at h
  split at h
  · cases h; rfl
  · split at h
    · cases h; rfl
    · cases h

theorem filter_key_eq_nil (textL : List Char) (kws : List String) (kw : String)
    (h : kw ∉ kws) :
    (kws.filterMap (classifyKeyword textL)).filter (fun m => m.1 == kw) = [] := by
  induction kws with
  | nil => rfl
  | cons a rest ih =>
      have hne : a ≠ kw := fun he => h (he ▸ List.mem_cons_self a rest)
      have hrest : kw ∉ rest := fun hr => h (List.mem_cons_of_mem a hr)
      rw [List.filterMap_cons]
      cases hc : classifyKeyword textL a with
      | none => exact ih hrest
      | some m =>
          have hm := classifyKeyword_key textL a m hc
          rw [List.filter_cons]
          have hb : (m.1 == kw) = false := by
            rw [hm]
            exact beq_eq_false_iff_ne.mpr hne
          rw [hb]
          exact ih hrest

theorem find_matches_at_most_one (text : String) (kws : List String) (kw : String)
    (hnd : kws.Nodup) :
    ((find_matches_in_text text kws).filter (fun m => m.1 == kw)).length ≤ 1 := by
  unfold find_matches_in_text
  split
  · simp
  · induction kws with
    | nil => simp
    | cons a rest ih =>
        rw [List.nodup_cons] at hnd
        obtain ⟨hna, hnr⟩ := hnd
        rw [List.filterMap_cons]
        cases hc : classifyKeyword (lowerChars text.data) a with
        | none => exact ih hnr
        | some m =>
            have hm := classifyKeyword_key _ a m hc
            rw [List.filter_cons]
            by_cases he : m.1 = kw
            · have hbeq : (m.1 == kw) = true := beq_iff_eq.mpr he
              rw [hbeq]
              have hkw : kw ∉ rest := by
                rw [hm] at he
                exact he ▸ hna
              rw [if_pos rfl, filter_key_eq_nil _ rest kw hkw]
              simp
            · have hbeq : (m.1 == kw) = false := beq_eq_false_iff_ne.mpr he
              rw [hbeq]
              exact ih hnr

/-! ### Claim C2 -/

theorem data_ne_nil_of_ne_empty (s : String) (h : s ≠ "") : s.data ≠ [] := by
  intro hd
  apply h
  apply String.ext
  rw [hd]

theorem lower_pointwise_of_lowerString (term : String) (h : lowerString term = term) :
    ∀ j, j < term.data.length →
      Char.toLower (term.data.getD j padChar) = term.data.getD j padChar := by
  intro j _
  have hmap : lowerChars term.data = term.data := congrArg String.data h
  rw [← getD_lowerChars, hmap]

/-- C2, amended.  For non-empty text and a duplicate-free term set, a
lowercase term that starts and ends with a word character is recorded as a
full-word match exactly when it occurs in the text case-insensitively bounded
by non-word characters (alphanumeric or underscore) or string edges, is
otherwise recorded as a substring match exactly when it occurs in the
lowercased text, yields at most one entry, and the two examples of the claim
hold. -/
theorem find_matches_classification (text : String) (terms : List String)
    (term : String) (htext : text ≠ "") (hnd : terms.Nodup) (hne : term ≠ "")
    (hlow : lowerString term = term)
    (hhead : isWordChar (term.data.getD 0 padChar) = true)
    (hlast : isWordChar (term.data.getD (term.data.length - 1) padChar) = true) :
    (((term, true) ∈ find_matches_in_text text terms) ↔
      term ∈ terms ∧ SpecFullWord text term) ∧
    (((term, false) ∈ find_matches_in_text text terms) ↔
      term ∈ terms ∧ ¬ SpecFullWord text term ∧ SpecSubstring text term) ∧
    ((find_matches_in_text text terms).filter (fun m => m.1 == term)).length ≤ 1 ∧
    find_matches_in_text "unlocked" ["lock"] = [("lock", false)] ∧
    find_matches_in_text "the lock is here" ["lock"] = [("lock", true)] := by
  have hk := data_ne_nil_of_ne_empty term hne
  have hpt := lower_pointwise_of_lowerString term hlow
  have hspec := fullWordSearch_iff_spec text term hk hpt hhead hlast
  refine ⟨?_, ?_, find_matches_at_most_one text terms term hnd, by decide, by decide⟩
  · rw [mem_find_matches_true, hspec]
    constructor
    · rintro ⟨_, hm, hs⟩; exact ⟨hm, hs⟩
    · rintro ⟨hm, hs⟩; exact ⟨htext, hm, hs⟩
  · rw [mem_find_matches_false]
    unfold SpecSubstring
    rw [← containsSub_iff_infix]
    constructor
    · rintro ⟨_, hm, hf, hc⟩
      refine ⟨hm, ?_, hc⟩
      rw [← hspec, hf]
      simp
    · rintro ⟨hm, hs, hc⟩
      refine ⟨htext, hm, ?_, hc⟩
      rw [← hspec] at hs
      exact Bool.not_eq_true _ ▸ Bool.eq_false_iff.mpr (fun ht => hs ht)

/-- Witness for the amended C2 at concrete inputs. -/
theorem find_matches_classification_witness :
    (("lock", true) ∈ find_matches_in_text "the lock is here" ["lock"] ↔
      "lock" ∈ ["lock"] ∧ SpecFullWord "the lock is here" "lock") :=
  (find_matches_classification "the lock is here" ["lock"] "lock"
    (by decide) (by decide) (by decide) (by decide) (by decide) (by decide)).1

/-- C2 counterexample: for text `"_lock_"` and term `"lock"` the claim's
boundary condition (non-alphanumeric flanks) holds, yet the matcher reports a
substring match, not a full-word match — underscore is a regex word
character. -/
theorem find_matches_word_boundary_counterexample :
    ClaimFullWord "_lock_" "lock" ∧
    ("lock", true) ∉ find_matches_in_text "_lock_" ["lock"] ∧
    find_matches_in_text "_lock_" ["lock"] = [("lock", false)] := by
  refine ⟨⟨1, ?_, ?_, ?_, ?_⟩, ?_, ?_⟩ <;> decide

/-! ### Claim C4: synonym expansion -/

theorem mem_setAdd (s : List String) (x a : String) :
    a ∈ setAdd s x ↔ a = x ∨ a ∈ s := by
  unfold setAdd
  split
  · rename_i h
    constructor
    · intro ha; exact Or.inr ha
    · rintro (rfl | ha)
      · exact h
      · exact ha
  · rw [List.mem_append, List.mem_singleton]
    tauto

theorem mem_foldl_setAdd_lower (vs : List String) (acc : List String) (t : String) :
    t ∈ vs.foldl (fun a s => setAdd a (lowerString s)) acc ↔
      t ∈ acc ∨ ∃ v ∈ vs, lowerString v = t := by
  induction vs generalizing acc with
  | nil => simp
  | cons v rest ih =>
      rw [List.foldl_cons, ih, mem_setAdd]
      simp only [List.mem_cons]
      constructor
      · rintro ((rfl | ha) | ⟨w, hw, hl⟩)
        · exact Or.inr ⟨v, Or.inl rfl, rfl⟩
        · exact Or.inl ha
        · exact Or.inr ⟨w, Or.inr hw, hl⟩
      · rintro (ha | ⟨w, (rfl | hw), hl⟩)
        · exact Or.inl (Or.inr ha)
        · exact Or.inl (Or.inl hl.symm)
        · exact Or.inr ⟨w, hw, hl⟩

theorem mem_expand_keywords (kws : List String) (syn : SynMap) (t : String) :
    t ∈ expand_keywords_with_synonyms kws syn ↔
      ∃ k ∈ kws, lowerString k = t ∨
        ∃ v ∈ (syn.lookup (lowerString k)).getD [], lowerString v = t := by
  unfold expand_keywords_with_synonyms
  suffices h : ∀ acc, t ∈ kws.foldl (fun acc keyword =>
      let kl := lowerString keyword
      let acc := setAdd acc kl
      match syn.lookup kl with
      | some syns => syns.foldl (fun a s => setAdd a (lowerString s)) acc
      | none => acc) acc ↔
      t ∈ acc ∨ ∃ k ∈ kws, lowerString k = t ∨
        ∃ v ∈ (syn.lookup (lowerString k)).getD [], lowerString v = t by
    rw [h []]
    simp
  intro acc
  induction kws generalizing acc with
  | nil => simp
  | cons k rest ih =>
      rw [List.foldl_cons, ih]
      simp only [List.mem_cons]
      cases hx : syn.lookup (lowerString k) with
      | none =>
          simp only [hx, mem_setAdd, Option.getD_none, List.not_mem_nil]
          constructor
          · rintro ((rfl | ha) | ⟨w, hw, hp⟩)
            · exact Or.inr ⟨k, Or.inl rfl, Or.inl rfl⟩
            · exact Or.inl ha
            · exact Or.inr ⟨w, Or.inr hw, hp⟩
          · rintro (ha | ⟨w, (rfl | hw), hp⟩)
            · exact Or.inl (Or.inr ha)
            · rcases hp with hp | ⟨v, hv, _⟩
              · exact Or.inl (Or.inl hp.symm)
              · rw [hx] at hv; simp at hv
            · exact Or.inr ⟨w, hw, hp⟩
      | some vs =>
          simp only [hx, mem_foldl_setAdd_lower, mem_setAdd, Option.getD_some]
          constructor
          · rintro (((rfl | ha) | ⟨w, hw, hp⟩) | ⟨w, hw, hp⟩)
            · exact Or.inr ⟨k, Or.inl rfl, Or.inl rfl⟩
            · exact Or.inl ha
            · exact Or.inr ⟨k, Or.inl rfl, Or.inr ⟨w, by rw [hx]; exact hw, hp⟩⟩
            · exact Or.inr ⟨w, Or.inr hw, hp⟩
          · rintro (ha | ⟨w, (rfl | hw), hp⟩)
            · exact Or.inl (Or.inl (Or.inr ha))
            · rcases hp with hp | ⟨v, hv, hp⟩
              · exact Or.inl (Or.inl (Or.inl hp.symm))
              · rw [hx] at hv
                exact Or.inl (Or.inr ⟨v, hv, hp⟩)
            · exact Or.inr ⟨w, hw, hp⟩

/-- C4 counterexample: with input keyword `"Skeleton"` (capitalised) and map
key `"skeleton"`, the code expands through the case-folded key, while the
claim as stated ("input keyword that is a key of the map") predicts no
expansion. -/
theorem expand_keywords_counterexample :
    "bones" ∈ expand_keywords_with_synonyms ["Skeleton"] [("skeleton", ["bones"])] ∧
    ¬ ClaimExpandMem ["Skeleton"] [("skeleton", ["bones"])] "bones" := by
  constructor
  · decide
  · unfold ClaimExpandMem
    decide

/-- C4, amended: the expanded set consists of the case-folded input keywords
together with, for each input keyword whose case-folded form is a key of the
map, the case-folded values of that key's synonym list; one hop only, and the
claim's two concrete examples hold. -/
theorem expand_keywords_spec (kws : List String) (syn : SynMap) (t : String) :
    (t ∈ expand_keywords_with_synonyms kws syn ↔
      ∃ k ∈ kws, lowerString k = t ∨
        ∃ v ∈ (syn.lookup (lowerString k)).getD [], lowerString v = t) ∧
    expand_keywords_with_synonyms ["skeleton"] [("skeleton", ["bones"])] =
      ["skeleton", "bones"] ∧
    expand_keywords_with_synonyms ["bones"] [("skeleton", ["bones"])] = ["bones"] :=
  ⟨mem_expand_keywords kws syn t, by decide, by decide⟩

/-! ### Claim C1: the scoring formula -/

theorem applyMatch_total (slot : Slot) (w : Nat) (st : ScoreState) (m : String × Bool) :
    (applyMatch slot w st m).total = st.total + (if m.2 then 2 * w else 1 * w) := by
  unfold applyMatch
  cases hm : m.2 <;> cases slot <;> simp [hm]

theorem foldl_applyMatch_total (slot : Slot) (w : Nat) (ms : List (String × Bool))
    (st : ScoreState) :
    ((ms.foldl (applyMatch slot w) st).total) =
      st.total + (ms.map fun m => if m.2 then 2 * w else 1 * w).sum := by
  induction ms generalizing st with
  | nil => simp
  | cons m rest ih =>
      rw [List.foldl_cons, ih, applyMatch_total, List.map_cons, List.sum_cons]
      omega

theorem find_matches_empty_text (kws : List String) :
    find_matches_in_text "" kws = [] := by
  unfold find_matches_in_text
  rw [if_pos rfl]

theorem fieldStep_total (track : Track) (kws : List String) (st : ScoreState)
    (slot : Slot) (w : Nat) :
    (fieldStep track kws st slot w).total =
      st.total + ((find_matches_in_text (trackGet track (slotName slot)) kws).map
        fun m => if m.2 then 2 * w else 1 * w).sum := by
  by_cases h : trackGet track (slotName slot) = ""
  · simp [fieldStep, h, find_matches_empty_text]
  · simp [fieldStep, h, foldl_applyMatch_total]

/-- C1: the Track Scorer's score is the sum, over the weighted fields `name`
(weight 3), `artist` (weight 2) and `album` (weight 1) and over each
`(term, is_full_word)` entry the Field Matcher reports for that field's text,
of `2 × weight` for a full-word entry and `1 × weight` otherwise; and the
"Skeleton Key" example scores exactly 6. -/
theorem score_track_formula :
    (∀ (track : Track) (terms : List String),
      (score_track track terms).1 =
        (([("name", 3), ("artist", 2), ("album", 1)] : List (String × Nat)).map
          fun fw => ((find_matches_in_text (trackGet track fw.1) terms).map
            fun m => if m.2 then 2 * fw.2 else 1 * fw.2).sum).sum) ∧
    (score_track [("name", "Skeleton Key"), ("artist", "X"), ("album", "Y")]
      ["skeleton"]).1 = 6 := by
  constructor
  · intro track terms
    unfold score_track scoreState defaultSlots
    rw [List.foldl_cons, List.foldl_cons, List.foldl_cons, List.foldl_nil]
    show (ScoreState.total _) = _
    rw [fieldStep_total, fieldStep_total, fieldStep_total]
    simp only [slotName, List.map_cons, List.map_nil, List.sum_cons, List.sum_nil]
    show 0 + _ + _ + _ = _
    omega
  · decide

/-! ### Scorer state lemmas -/

theorem foldlM_eq_foldl {α β : Type} (g : β → α → Option β) (f : β → α → β)
    (l : List α) (h : ∀ st a, a ∈ l → g st a = some (f st a)) (st : β) :
    l.foldlM g st = some (l.foldl f st) := by
  induction l generalizing st with
  | nil => rfl
  | cons a rest ih =>
      rw [List.foldlM_cons, h st a (List.mem_cons_self a rest)]
      show (rest.foldlM g (f st a)) = _
      rw [List.foldl_cons]
      exact ih (fun st' a' ha' => h st' a' (List.mem_cons_of_mem a ha')) (f st a)

theorem score_track_with_default (track : Track) (terms : List String) :
    score_track_with track terms [("name", 3), ("artist", 2), ("album", 1)] =
      some (score_track track terms) := by
  unfold score_track_with score_track scoreState defaultSlots
  rw [foldlM_eq_foldl (stepWith track terms) (fun st (p : String × Nat) =>
      match fieldSlot p.1 with
      | some slot => fieldStep track terms st slot p.2
      | none => st)]
  · rw [Option.map_some']
    congr 1
  · intro st p hp
    simp only [List.mem_cons, List.not_mem_nil, or_false] at hp
    rcases hp with rfl | rfl | rfl <;>
      { by_cases h : trackGet track "name" = "" <;>
        by_cases h2 : trackGet track "artist" = "" <;>
        by_cases h3 : trackGet track "album" = "" <;>
        simp [stepWith, fieldSlot, fieldStep, slotName, h, h2, h3, find_matches_empty_text] }


theorem applyMatch_locName (slot : Slot) (w : Nat) (st : ScoreState) (m : String × Bool) :
    (applyMatch slot w st m).locName =
      if slot = .name then st.locName ++ [m.1] else st.locName := by
  unfold applyMatch
  cases slot <;> cases hm : m.2 <;> simp [hm]

theorem applyMatch_locArtist (slot : Slot) (w : Nat) (st : ScoreState) (m : String × Bool) :
    (applyMatch slot w st m).locArtist =
      if slot = .artist then st.locArtist ++ [m.1] else st.locArtist := by
  unfold applyMatch
  cases slot <;> cases hm : m.2 <;> simp [hm]

theorem applyMatch_locAlbum (slot : Slot) (w : Nat) (st : ScoreState) (m : String × Bool) :
    (applyMatch slot w st m).locAlbum =
      if slot = .album then st.locAlbum ++ [m.1] else st.locAlbum := by
  unfold applyMatch
  cases slot <;> cases hm : m.2 <;> simp [hm]

theorem foldl_applyMatch_locName (slot : Slot) (w : Nat) (ms : List (String × Bool))
    (st : ScoreState) :
    (ms.foldl (applyMatch slot w) st).locName =
      if slot = .name then st.locName ++ ms.map Prod.fst else st.locName := by
  induction ms generalizing st with
  | nil => cases slot <;> simp
  | cons m rest ih =>
      rw [List.foldl_cons, ih, applyMatch_locName]
      cases slot <;> simp

theorem foldl_applyMatch_locArtist (slot : Slot) (w : Nat) (ms : List (String × Bool))
    (st : ScoreState) :
    (ms.foldl (applyMatch slot w) st).locArtist =
      if slot = .artist then st.locArtist ++ ms.map Prod.fst else st.locArtist := by
  induction ms generalizing st with
  | nil => cases slot <;> simp
  | cons m rest ih =>
      rw [List.foldl_cons, ih, applyMatch_locArtist]
      cases slot <;> simp

theorem foldl_applyMatch_locAlbum (slot : Slot) (w : Nat) (ms : List (String × Bool))
    (st : ScoreState) :
    (ms.foldl (applyMatch slot w) st).locAlbum =
      if slot = .album then st.locAlbum ++ ms.map Prod.fst else st.locAlbum := by
  induction ms generalizing st with
  | nil => cases slot <;> simp
  | cons m rest ih =>
      rw [List.foldl_cons, ih, applyMatch_locAlbum]
      cases slot <;> simp

theorem fieldStep_locName (track : Track) (kws : List String) (st : ScoreState)
    (slot : Slot) (w : Nat) :
    (fieldStep track kws st slot w).locName =
      if slot = .name
      then st.locName ++ (find_matches_in_text (trackGet track (slotName slot)) kws).map Prod.fst
      else st.locName := by
  by_cases h : trackGet track (slotName slot) = ""
  · cases slot <;> simp [fieldStep, h, find_matches_empty_text]
  · cases slot <;> simp [fieldStep, h, foldl_applyMatch_locName]

theorem fieldStep_locArtist (track : Track) (kws : List String) (st : ScoreState)
    (slot : Slot) (w : Nat) :
    (fieldStep track kws st slot w).locArtist =
      if slot = .artist
      then st.locArtist ++ (find_matches_in_text (trackGet track (slotName slot)) kws).map Prod.fst
      else st.locArtist := by
  by_cases h : trackGet track (slotName slot) = ""
  · cases slot <;> simp [fieldStep, h, find_matches_empty_text]
  · cases slot <;> simp [fieldStep, h, foldl_applyMatch_locArtist]

theorem fieldStep_locAlbum (track : Track) (kws : List String) (st : ScoreState)
    (slot : Slot) (w : Nat) :
    (fieldStep track kws st slot w).locAlbum =
      if slot = .album
      then st.locAlbum ++ (find_matches_in_text (trackGet track (slotName slot)) kws).map Prod.fst
      else st.locAlbum := by
  by_cases h : trackGet track (slotName slot) = ""
  · cases slot <;> simp [fieldStep, h, find_matches_empty_text]
  · cases slot <;> simp [fieldStep, h, foldl_applyMatch_locAlbum]

theorem scoreState_locName (track : Track) (kws : List String) :
    (scoreState track kws).locName =
      (find_matches_in_text (trackGet track "name") kws).map Prod.fst := by
  unfold scoreState defaultSlots
  rw [List.foldl_cons, List.foldl_cons, List.foldl_cons, List.foldl_nil,
    fieldStep_locName, fieldStep_locName, fieldStep_locName]
  simp [slotName, initState]

theorem scoreState_locArtist (track : Track) (kws : List String) :
    (scoreState track kws).locArtist =
      (find_matches_in_text (trackGet track "artist") kws).map Prod.fst := by
  unfold scoreState defaultSlots
  rw [List.foldl_cons, List.foldl_cons, List.foldl_cons, List.foldl_nil,
    fieldStep_locArtist, fieldStep_locArtist, fieldStep_locArtist]
  simp [slotName, initState]

theorem scoreState_locAlbum (track : Track) (kws : List String) :
    (scoreState track kws).locAlbum =
      (find_matches_in_text (trackGet track "album") kws).map Prod.fst := by
  unfold scoreState defaultSlots
  rw [List.foldl_cons, List.foldl_cons, List.foldl_cons, List.foldl_nil,
    fieldStep_locAlbum, fieldStep_locAlbum, fieldStep_locAlbum]
  simp [slotName, initState]

theorem mem_locations_keys (st : ScoreState) (f : String) :
    f ∈ ((finalize st).2.locations.map Prod.fst) ↔
      (f = "name" ∧ st.locName ≠ []) ∨ (f = "artist" ∧ st.locArtist ≠ []) ∨
      (f = "album" ∧ st.locAlbum ≠ []) := by
  unfold finalize
  simp only [List.filter]
  cases hn : st.locName.isEmpty <;> cases ha : st.locArtist.isEmpty <;>
    cases hb : st.locAlbum.isEmpty <;>
    simp_all [List.isEmpty_iff, List.filter]


/-- C7: scoring a track never raises — with the default multipliers the
`Option`-modelled field loop succeeds on every track dictionary, however
incomplete — and an absent or empty `name`/`artist`/`album` field contributes
no matches, no location entry and (through the C1 sum) no score. -/
theorem score_track_missing_fields (track : Track) (terms : List String) :
    score_track_with track terms [("name", 3), ("artist", 2), ("album", 1)] =
      some (score_track track terms) ∧
    (∀ f, f ∈ ["name", "artist", "album"] → trackGet track f = "" →
      find_matches_in_text (trackGet track f) terms = [] ∧
      f ∉ ((score_track track terms).2.locations.map Prod.fst)) := by
  refine ⟨score_track_with_default track terms, ?_⟩
  intro f hf hempty
  refine ⟨by rw [hempty]; exact find_matches_empty_text terms, ?_⟩
  show f ∉ ((finalize (scoreState track terms)).2.locations.map Prod.fst)
  rw [mem_locations_keys]
  simp only [List.mem_cons, List.not_mem_nil, or_false] at hf
  rcases hf with rfl | rfl | rfl
  · rintro (⟨_, hne⟩ | ⟨hab, _⟩ | ⟨hab, _⟩)
    · exact hne (by rw [scoreState_locName, hempty, find_matches_empty_text]; rfl)
    · exact absurd hab (by decide)
    · exact absurd hab (by decide)
  · rintro (⟨hab, _⟩ | ⟨_, hne⟩ | ⟨hab, _⟩)
    · exact absurd hab (by decide)
    · exact hne (by rw [scoreState_locArtist, hempty, find_matches_empty_text]; rfl)
    · exact absurd hab (by decide)
  · rintro (⟨hab, _⟩ | ⟨hab, _⟩ | ⟨_, hne⟩)
    · exact absurd hab (by decide)
    · exact absurd hab (by decide)
    · exact hne (by rw [scoreState_locAlbum, hempty, find_matches_empty_text]; rfl)

/-- Witness for C7 on a track with no fields at all. -/
theorem score_track_missing_fields_witness :
    score_track_with [] ["z"] [("name", 3), ("artist", 2), ("album", 1)] =
      some (score_track [] ["z"]) ∧
    find_matches_in_text (trackGet [] "name") ["z"] = [] ∧
    "name" ∉ ((score_track [] ["z"]).2.locations.map Prod.fst) := by
  obtain ⟨h1, h2⟩ := score_track_missing_fields [] ["z"]
  exact ⟨h1, (h2 "name" (by decide) (by decide)).1, (h2 "name" (by decide) (by decide)).2⟩

/-- C5 counterexample: a weights mapping with the extra key `"genre"` on a
track whose `genre` field matches a term makes `score_track` raise `KeyError`
(modelled `none`), instead of returning normally. -/
theorem score_track_extra_key_counterexample :
    score_track_with [("genre", "skeleton")] ["skeleton"]
      [("name", 3), ("artist", 2), ("album", 1), ("genre", 1)] = none := by
  decide

theorem foldlM_stepWith_filter (track : Track) (terms : List String)
    (mults : List (String × Nat))
    (h : ∀ p ∈ mults, fieldSlot p.1 = none →
      find_matches_in_text (trackGet track p.1) terms = []) :
    ∀ st, mults.foldlM (stepWith track terms) st =
      (mults.filter fun p => (fieldSlot p.1).isSome).foldlM (stepWith track terms) st := by
  induction mults with
  | nil => intro st; rfl
  | cons p rest ih =>
      intro st
      have hrest := fun q hq => h q (List.mem_cons_of_mem p hq)
      cases hs : fieldSlot p.1 with
      | some slot =>
          rw [List.filter_cons]
          simp only [hs, Option.isSome_some, if_true]
          obtain ⟨st2, hstep⟩ : ∃ st2, stepWith track terms st p = some st2 := by
            unfold stepWith
            by_cases hv : trackGet track p.1 = ""
            · exact ⟨st, by simp [hv]⟩
            · exact ⟨(find_matches_in_text (trackGet track p.1) terms).foldl
                (applyMatch slot p.2) st, by simp [hv, hs]⟩
          rw [List.foldlM_cons, List.foldlM_cons, hstep]
          show rest.foldlM _ st2 = _
          exact ih hrest st2
      | none =>
          rw [List.filter_cons]
          simp only [hs, Option.isSome_none, Bool.false_eq_true, if_false]
          have hstep : stepWith track terms st p = some st := by
            unfold stepWith
            by_cases hv : trackGet track p.1 = ""
            · simp [hv]
            · have hms := h p (List.mem_cons_self p rest) hs
              simp [hv, hs, hms]
          rw [List.foldlM_cons, hstep]
          show rest.foldlM _ st = _
          exact ih hrest st

/-- C5, amended: the field loop runs over the keys of the weights mapping, so
an extra key causes the corresponding track field to be read and matched.
When every extra key's field yields no match, the scorer returns exactly what
it returns with the extra keys removed (they are ignored and no error is
raised); when an extra key's field does match, `location_matches[field]`
raises `KeyError` (see the counterexample). -/
theorem score_track_extra_keys (track : Track) (terms : List String)
    (mults : List (String × Nat))
    (h : ∀ p ∈ mults, fieldSlot p.1 = none →
      find_matches_in_text (trackGet track p.1) terms = []) :
    score_track_with track terms mults =
      score_track_with track terms (mults.filter fun p => (fieldSlot p.1).isSome) := by
  unfold score_track_with
  rw [foldlM_stepWith_filter track terms mults h initState]

/-- Witness for the amended C5: an unmatched extra key is dropped. -/
theorem score_track_extra_keys_witness :
    score_track_with [("name", "skeleton")] ["skeleton"]
      [("name", 3), ("artist", 2), ("album", 1), ("genre", 7)] =
    score_track_with [("name", "skeleton")] ["skeleton"]
      ([("name", 3), ("artist", 2), ("album", 1), ("genre", 7)].filter
        fun p => (fieldSlot p.1).isSome) :=
  score_track_extra_keys [("name", "skeleton")] ["skeleton"]
    [("name", 3), ("artist", 2), ("album", 1), ("genre", 7)] (by decide)

/-! ### Stable sort lemmas -/

theorem mem_insertKey (lt : α → α → Bool) (x : α) (l : List α) (a : α) :
    a ∈ insertKey lt x l ↔ a = x ∨ a ∈ l := by
  induction l with
  | nil => simp [insertKey]
  | cons y ys ih =>
      unfold insertKey
      split
      · rw [List.mem_cons, ih, List.mem_cons]
        tauto
      · simp only [List.mem_cons]

theorem insertKey_perm (lt : α → α → Bool) (x : α) (l : List α) :
    (insertKey lt x l).Perm (x :: l) := by
  induction l with
  | nil => exact List.Perm.refl _
  | cons y ys ih =>
      unfold insertKey
      split
      · exact ((ih.cons y).trans (List.Perm.swap x y ys)).symm.symm
      · exact List.Perm.refl _

theorem stableSort_perm (lt : α → α → Bool) (l : List α) :
    (stableSort lt l).Perm l := by
  induction l with
  | nil => exact List.Perm.refl _
  | cons x xs ih =>
      exact (insertKey_perm lt x (stableSort lt xs)).trans (ih.cons x)

theorem sorted_insertKey (lt : α → α → Bool)
    (hasym : ∀ a b, lt a b = true → lt b a = false)
    (hneg : ∀ a b c, lt c a = true → lt c b = true ∨ lt b a = true)
    (x : α) (l : List α) (h : List.Pairwise (fun a b => lt b a = false) l) :
    List.Pairwise (fun a b => lt b a = false) (insertKey lt x l) := by
  induction l with
  | nil => exact List.pairwise_singleton _ x
  | cons y ys ih =>
      rw [List.pairwise_cons] at h
      obtain ⟨hy, hys⟩ := h
      unfold insertKey
      split
      · rename_i hlt
        rw [List.pairwise_cons]
        refine ⟨?_, ih hys⟩
        intro b hb
        rw [mem_insertKey] at hb
        rcases hb with rfl | hb
        · exact hasym y b hlt
        · exact hy b hb
      · rename_i hlt
        rw [List.pairwise_cons]
        refine ⟨?_, List.pairwise_cons.mpr ⟨hy, hys⟩⟩
        intro b hb
        rcases List.mem_cons.mp hb with rfl | hb
        · exact Bool.eq_false_iff.mpr hlt
        · cases hbx : lt b x with
          | false => rfl
          | true =>
              rcases hneg x y b hbx with h1 | h1
              · rw [hy b hb] at h1; cases h1
              · rw [Bool.eq_false_iff.mpr hlt] at h1; cases h1

theorem sorted_stableSort (lt : α → α → Bool)
    (hasym : ∀ a b, lt a b = true → lt b a = false)
    (hneg : ∀ a b c, lt c a = true → lt c b = true ∨ lt b a = true)
    (l : List α) :
    List.Pairwise (fun a b => lt b a = false) (stableSort lt l) := by
  induction l with
  | nil => exact List.Pairwise.nil
  | cons x xs ih => exact sorted_insertKey lt hasym hneg x (stableSort lt xs) ih

theorem pairwise_insertKey (S : α → α → Prop) (lt : α → α → Bool) (x : α)
    (l : List α) (h : List.Pairwise S l) (h2 : ∀ b ∈ l, S x b)
    (h1 : ∀ b ∈ l, lt b x = true → S b x) :
    List.Pairwise S (insertKey lt x l) := by
  induction l with
  | nil => exact List.pairwise_singleton S x
  | cons y ys ih =>
      rw [List.pairwise_cons] at h
      obtain ⟨hy, hys⟩ := h
      unfold insertKey
      split
      · rename_i hlt
        rw [List.pairwise_cons]
        refine ⟨?_, ih hys (fun b hb => h2 b (List.mem_cons_of_mem y hb))
          (fun b hb => h1 b (List.mem_cons_of_mem y hb))⟩
        intro b hb
        rw [mem_insertKey] at hb
        rcases hb with rfl | hb
        · exact h1 y (List.mem_cons_self y ys) hlt
        · exact hy b hb
      · rw [List.pairwise_cons]
        exact ⟨h2, List.pairwise_cons.mpr ⟨hy, hys⟩⟩

theorem pairwise_stableSort (S : α → α → Prop) (lt : α → α → Bool)
    (hS : ∀ a b, lt b a = true → S b a) (l : List α)
    (h : List.Pairwise S l) :
    List.Pairwise S (stableSort lt l) := by
  induction l with
  | nil => exact List.Pairwise.nil
  | cons x xs ih =>
      rw [List.pairwise_cons] at h
      obtain ⟨hx, hxs⟩ := h
      refine pairwise_insertKey S lt x (stableSort lt xs) (ih hxs) ?_ ?_
      · intro b hb
        exact hx b ((stableSort_perm lt xs).mem_iff.mp hb)
      · intro b _ hlt
        exact hS x b hlt

theorem map_insertKey (f : α → β) (lt : β → β → Bool) (x : α) (l : List α) :
    (insertKey (fun a b => lt (f a) (f b)) x l).map f =
      insertKey lt (f x) (l.map f) := by
  induction l with
  | nil => rfl
  | cons y ys ih =>
      show List.map f (if lt (f y) (f x) then y :: insertKey (fun a b => lt (f a) (f b)) x ys
          else x :: y :: ys) =
        if lt (f y) (f x) then f y :: insertKey lt (f x) (ys.map f)
          else f x :: f y :: ys.map f
      by_cases h : lt (f y) (f x) = true
      · rw [if_pos h, if_pos h, List.map_cons, ih]
      · rw [if_neg h, if_neg h, List.map_cons, List.map_cons]

theorem map_stableSort (f : α → β) (lt : β → β → Bool) (l : List α) :
    (stableSort (fun a b => lt (f a) (f b)) l).map f = stableSort lt (l.map f) := by
  induction l with
  | nil => rfl
  | cons x xs ih =>
      show (insertKey _ x _).map f = insertKey lt (f x) _
      rw [map_insertKey, ih]

/-! ### Ranking pipeline lemmas -/

theorem rankLt_iff (a b : Track × MatchDetails) : rankLt a b = true ↔
    (b.2.score < a.2.score ∨ (a.2.score = b.2.score ∧
      lowerString (trackGet a.1 "name") < lowerString (trackGet b.1 "name"))) := by
  unfold rankLt
  simp [Bool.or_eq_true, Bool.and_eq_true, decide_eq_true_eq, beq_iff_eq]

theorem rankLt_asymm (a b : Track × MatchDetails) (h : rankLt a b = true) :
    rankLt b a = false := by
  rw [rankLt_iff] at h
  rw [Bool.eq_false_iff]
  intro h2
  rw [rankLt_iff] at h2
  rcases h with h | ⟨hs, hn⟩ <;> rcases h2 with h2 | ⟨hs2, hn2⟩
  · omega
  · omega
  · omega
  · exact absurd hn2 (lt_asymm hn)

theorem rankLt_negtrans (a b c : Track × MatchDetails) (h : rankLt c a = true) :
    rankLt c b = true ∨ rankLt b a = true := by
  rw [rankLt_iff] at h
  rw [rankLt_iff, rankLt_iff]
  rcases h with h | ⟨hs, hn⟩
  · rcases Nat.lt_trichotomy b.2.score c.2.score with h2 | h2 | h2
    · left; left; exact h2
    · right; left; omega
    · right; left; omega
  · rcases Nat.lt_trichotomy b.2.score c.2.score with h2 | h2 | h2
    · left; left; exact h2
    · rcases lt_or_le (lowerString (trackGet c.1 "name")) (lowerString (trackGet b.1 "name")) with h3 | h3
      · left; right; exact ⟨h2.symm, h3⟩
      · right; right
        exact ⟨by omega, lt_of_le_of_lt h3 hn⟩
    · right; left; omega

theorem sortKeyLe_of_not_rankLt (a b : Track × MatchDetails)
    (h : rankLt b a = false) : SortKeyLe a b := by
  unfold SortKeyLe
  have h2 : ¬(rankLt b a = true) := by rw [h]; exact Bool.false_ne_true
  rw [rankLt_iff] at h2
  push_neg at h2
  obtain ⟨h3, h4⟩ := h2
  rcases Nat.lt_or_ge a.2.score b.2.score with h5 | h5
  · omega
  · rcases Nat.eq_or_lt_of_le h5 with h6 | h6
    · right
      exact ⟨h6.symm, not_lt.mp (h4 h6)⟩
    · left; exact h6

theorem score_track_fst_eq (t : Track) (kws : List String) :
    (score_track t kws).2.score = (score_track t kws).1 := rfl

theorem foldl_matching_eq (kws : List String) (ms : Int) (tracks : List Track)
    (acc : List (Track × MatchDetails)) :
    tracks.foldl (fun acc track =>
      let r := score_track track kws
      if ms ≤ (r.1 : Int) then acc ++ [(track, r.2)] else acc) acc =
      acc ++ (tracks.map fun t => (t, (score_track t kws).2)).filter
        (fun p => decide (ms ≤ (p.2.score : Int))) := by
  induction tracks generalizing acc with
  | nil => simp
  | cons t rest ih =>
      rw [List.foldl_cons]
      show List.foldl _ (if ms ≤ ((score_track t kws).1 : Int)
          then acc ++ [(t, (score_track t kws).2)] else acc) rest = _
      rw [List.map_cons, List.filter_cons]
      by_cases h : ms ≤ ((score_track t kws).1 : Int)
      · rw [if_pos h, ih]
        have hd : (decide (ms ≤ (((t, (score_track t kws).2) :
            Track × MatchDetails).2.score : Int))) = true := by
          rw [score_track_fst_eq]
          exact decide_eq_true h
        rw [hd, if_pos rfl, List.append_assoc]
        rfl
      · rw [if_neg h, ih]
        have hd : (decide (ms ≤ (((t, (score_track t kws).2) :
            Track × MatchDetails).2.score : Int))) = false := by
          rw [score_track_fst_eq]
          exact decide_eq_false h
        rw [hd, if_neg Bool.false_ne_true]

theorem find_matching_tracks_eq (tracks : List Track) (kws : List String)
    (syns : Option SynMap) (ms : Int) :
    find_matching_tracks tracks kws syns ms =
      stableSort rankLt
        ((tracks.map fun t => (t, (score_track t (effectiveKeywords kws syns)).2)).filter
          (fun p => decide (ms ≤ (p.2.score : Int)))) := by
  show stableSort rankLt (tracks.foldl _ []) = _
  rw [foldl_matching_eq]
  rfl

/-! ### Claims C3, C10, C6 -/

theorem mem_lowerSet (kws : List String) (t : String) :
    t ∈ lowerSet kws ↔ ∃ k ∈ kws, lowerString k = t := by
  unfold lowerSet
  rw [mem_foldl_setAdd_lower]
  simp

theorem mem_effectiveKeywords (kws : List String) (syns : Option SynMap) (s : String) :
    s ∈ effectiveKeywords kws syns ↔ s ∈ ClaimEffectiveTerms kws syns := by
  cases syns with
  | none =>
      show s ∈ lowerSet kws ↔ s ∈ kws.map lowerString
      rw [mem_lowerSet, List.mem_map]
  | some syn =>
      show s ∈ (if syn.isEmpty then lowerSet kws
          else expand_keywords_with_synonyms kws syn) ↔
        s ∈ expand_keywords_with_synonyms kws syn
      by_cases hempty : syn.isEmpty = true
      · have hnil : syn = [] := List.isEmpty_iff.mp hempty
        subst hnil
        rw [if_pos hempty, mem_lowerSet, mem_expand_keywords]
        constructor
        · rintro ⟨k, hk, hl⟩; exact ⟨k, hk, Or.inl hl⟩
        · rintro ⟨k, hk, hl | ⟨v, hv, _⟩⟩
          · exact ⟨k, hk, hl⟩
          · simp at hv
      · rw [if_neg hempty]

/-- C3: the Ranking Engine's result is exactly the scored tracks whose score
is at least `min_score` (as a permutation of that filtered list), sorted by
score descending with ties broken by case-insensitively compared track name
ascending; the effective term set is the synonym expansion when a synonym map
is provided, and the lowercased keywords otherwise. -/
theorem find_matching_tracks_ranking (tracks : List Track) (kws : List String)
    (syns : Option SynMap) (ms : Int) :
    (find_matching_tracks tracks kws syns ms).Perm
      ((tracks.map fun t => (t, (score_track t (effectiveKeywords kws syns)).2)).filter
        (fun p => decide (ms ≤ (p.2.score : Int)))) ∧
    List.Pairwise SortKeyLe (find_matching_tracks tracks kws syns ms) ∧
    (∀ s, s ∈ effectiveKeywords kws syns ↔ s ∈ ClaimEffectiveTerms kws syns) := by
  refine ⟨?_, ?_, fun s => mem_effectiveKeywords kws syns s⟩
  · rw [find_matching_tracks_eq]
    exact stableSort_perm _ _
  · rw [find_matching_tracks_eq]
    exact (sorted_stableSort rankLt rankLt_asymm rankLt_negtrans _).imp
      (fun h => sortKeyLe_of_not_rankLt _ _ h)

theorem fieldStep_no_matches (track : Track) (kws : List String) (st : ScoreState)
    (slot : Slot) (w : Nat)
    (h : find_matches_in_text (trackGet track (slotName slot)) kws = []) :
    fieldStep track kws st slot w = st := by
  by_cases hv : trackGet track (slotName slot) = ""
  · simp [fieldStep, hv]
  · simp [fieldStep, hv, h]

theorem score_track_no_matches (track : Track) (terms : List String)
    (h : ∀ f ∈ ["name", "artist", "album"],
      find_matches_in_text (trackGet track f) terms = []) :
    score_track track terms = (0, ⟨[], [], [], 0⟩) := by
  unfold score_track scoreState defaultSlots
  simp only [List.foldl_cons, List.foldl_nil]
  rw [fieldStep_no_matches _ _ _ _ _ (h "album" (by decide)),
    fieldStep_no_matches _ _ _ _ _ (h "artist" (by decide)),
    fieldStep_no_matches _ _ _ _ _ (h "name" (by decide))]
  rfl

/-- C10: with the default `min_score = 0` every input track appears in the
result (scores are natural numbers and the filter keeps `score ≥ 0`), and a
track with no matches in any field is scored `(0, empty MatchDetails)`. -/
theorem find_matching_tracks_default_keeps_all (tracks : List Track)
    (kws : List String) (syns : Option SynMap) :
    (find_matching_tracks tracks kws syns 0).length = tracks.length ∧
    (∀ (track : Track) (terms : List String),
      (∀ f ∈ ["name", "artist", "album"],
        find_matches_in_text (trackGet track f) terms = []) →
      score_track track terms = (0, ⟨[], [], [], 0⟩)) := by
  constructor
  · rw [find_matching_tracks_eq]
    rw [(stableSort_perm _ _).length_eq]
    rw [List.filter_eq_self.mpr]
    · rw [List.length_map]
    · intro p _
      exact decide_eq_true (Int.ofNat_nonneg p.2.score)
  · exact fun track terms h => score_track_no_matches track terms h

/-- Witness for C10 on a one-track corpus with no matches. -/
theorem find_matching_tracks_default_keeps_all_witness :
    (find_matching_tracks [[("name", "A")]] ["z"] none 0).length =
      [[("name", "A")]].length ∧
    score_track [("name", "A")] ["z"] = (0, ⟨[], [], [], 0⟩) := by
  obtain ⟨h1, h2⟩ := find_matching_tracks_default_keeps_all [[("name", "A")]] ["z"] none
  exact ⟨h1, h2 [("name", "A")] ["z"] (by decide)⟩

/-- C6 counterexample: a non-empty corpus with no matches is not empty under
the default `min_score = 0` — the no-match track is returned with score 0. -/
theorem no_match_default_min_score_counterexample :
    find_matches_in_text "A" ["z"] = [] ∧
    (find_matching_tracks [[("name", "A")]] ["z"] none 0).length = 1 := by
  constructor
  · decide
  · decide

/-- C6, amended: ranking an empty track list returns the empty sequence for
every `min_score`, and ranking a corpus in which no track's `name`, `artist`
or `album` yields any matcher entry returns the empty sequence for every
`min_score ≥ 1` (with the default `min_score = 0` such tracks are instead
all returned with score 0), without raising. -/
theorem empty_and_no_match_results (kws : List String) (syns : Option SynMap) :
    (∀ ms : Int, find_matching_tracks [] kws syns ms = []) ∧
    (∀ (tracks : List Track) (ms : Int), 1 ≤ ms →
      (∀ track ∈ tracks, ∀ f ∈ ["name", "artist", "album"],
        find_matches_in_text (trackGet track f) (effectiveKeywords kws syns) = []) →
      find_matching_tracks tracks kws syns ms = []) := by
  constructor
  · intro ms
    rfl
  · intro tracks ms hms h
    rw [find_matching_tracks_eq]
    have hnil : ((tracks.map fun t =>
        (t, (score_track t (effectiveKeywords kws syns)).2)).filter
          (fun p => decide (ms ≤ (p.2.score : Int)))) = [] := by
      rw [List.filter_eq_nil_iff]
      rintro p hp
      rw [List.mem_map] at hp
      obtain ⟨t, ht, rfl⟩ := hp
      have hsc := score_track_no_matches t (effectiveKeywords kws syns) (h t ht)
      intro hcon
      rw [decide_eq_true_eq, hsc] at hcon
      simp at hcon
      omega
    rw [hnil]
    rfl

/-- Witness for the amended C6. -/
theorem empty_and_no_match_results_witness :
    find_matching_tracks [] ["z"] none 5 = [] ∧
    find_matching_tracks [[("name", "A")]] ["z"] none 1 = [] := by
  obtain ⟨h1, h2⟩ := empty_and_no_match_results ["z"] none
  exact ⟨h1 5, h2 [[("name", "A")]] 1 (by decide) (by decide)⟩

/-! ### Claim C9: stability -/

theorem map_snd_filter_map_enumFrom (l : List α) (f : α → β) (q : β → Bool) :
    ∀ n, ((((l.enumFrom n).map fun p => (p.1, f p.2)).filter
        (fun p => q p.2)).map Prod.snd) = (l.map f).filter q := by
  induction l with
  | nil => intro n; rfl
  | cons x xs ih =>
      intro n
      show ((((n, x) :: xs.enumFrom (n + 1)).map fun p => (p.1, f p.2)).filter
        (fun p => q p.2)).map Prod.snd = (f x :: xs.map f).filter q
      cases hq : q (f x) <;> simp [hq, ih (n + 1)]

theorem pairwise_fst_lt_enumFrom (l : List α) :
    ∀ n, List.Pairwise (fun (a b : Nat × α) => a.1 < b.1) (l.enumFrom n) := by
  induction l with
  | nil => intro n; exact List.Pairwise.nil
  | cons x xs ih =>
      intro n
      show List.Pairwise _ ((n, x) :: xs.enumFrom (n + 1))
      rw [List.pairwise_cons]
      refine ⟨?_, ih (n + 1)⟩
      intro b hb
      have := List.mem_enumFrom hb
      omega

/-- C9 (implicit): the ranking is stable — running the pipeline on the
position-tagged corpus produces the same ranking (after dropping positions),
and in that tagged ranking any two entries with equal score and equal
case-folded name keep strictly increasing input positions. -/
theorem find_matching_tracks_stable (tracks : List Track) (kws : List String)
    (syns : Option SynMap) (ms : Int) :
    let terms := effectiveKeywords kws syns
    let idxed := ((tracks.enum.map fun p => (p.1, (p.2, (score_track p.2 terms).2))).filter
      (fun p => decide (ms ≤ (p.2.2.score : Int))))
    let sortedIdx := stableSort (fun a b => rankLt a.2 b.2) idxed
    find_matching_tracks tracks kws syns ms = sortedIdx.map Prod.snd ∧
    List.Pairwise (fun a b => a.2.2.score = b.2.2.score →
      lowerString (trackGet a.2.1 "name") = lowerString (trackGet b.2.1 "name") →
      a.1 < b.1) sortedIdx := by
  intro terms idxed sortedIdx
  constructor
  · rw [find_matching_tracks_eq]
    show _ = (stableSort (fun a b => rankLt a.2 b.2) idxed).map Prod.snd
    rw [map_stableSort Prod.snd rankLt idxed]
    exact congrArg (stableSort rankLt)
      (map_snd_filter_map_enumFrom tracks (fun t => (t, (score_track t terms).2))
        (fun x => decide (ms ≤ (x.2.score : Int))) 0).symm
  · apply pairwise_stableSort
    · intro a b hlt hsc hnm
      exfalso
      rw [rankLt_iff] at hlt
      rcases hlt with h | ⟨h1, h2⟩
      · omega
      · rw [hnm] at h2
        exact lt_irrefl _ h2
    · apply List.Pairwise.sublist (List.filter_sublist _)
      rw [List.pairwise_map]
      exact (pairwise_fst_lt_enumFrom tracks 0).imp
        (fun {a b} h => fun _ _ => h)

end ThemeMatcher
namespace ThemeMatcher

theorem lookup_cons (k b v : String) (es : List (String × String)) :
    List.lookup k ((b, v) :: es) = if k == b then some v else List.lookup k es := by
  cases h : k == b <;> simp [List.lookup, h]

theorem beq_false_not (a b : String) (h : a ≠ b) : ¬((a == b) = true) := by
  rw [beq_iff_eq]
  exact h

theorem lookup_map_replace (t : Track) (k v : String) :
    List.lookup k (t.map fun p => if p.1 == k then (k, v) else p) =
      if (List.lookup k t).isSome then some v else none := by
  induction t with
  | nil => rfl
  | cons p rest ih =>
      obtain ⟨a, b⟩ := p
      simp only [List.map_cons]
      rw [lookup_cons]
      by_cases hp : a = k
      · rw [if_pos (beq_iff_eq.mpr hp), lookup_cons, if_pos (beq_iff_eq.mpr rfl),
          if_pos (beq_iff_eq.mpr hp.symm)]
        simp
      · rw [if_neg (beq_false_not a k hp), lookup_cons,
          if_neg (beq_false_not k a (fun he => hp he.symm)),
          if_neg (beq_false_not k a (fun he => hp he.symm))]
        exact ih

theorem lookup_map_replace_other (t : Track) (k v f : String) (hf : f ≠ k) :
    List.lookup f (t.map fun p => if p.1 == k then (k, v) else p) =
      List.lookup f t := by
  induction t with
  | nil => rfl
  | cons p rest ih =>
      obtain ⟨a, b⟩ := p
      simp only [List.map_cons]
      rw [lookup_cons]
      by_cases hp : a = k
      · rw [if_pos (beq_iff_eq.mpr hp), lookup_cons,
          if_neg (beq_false_not f k hf),
          if_neg (beq_false_not f a (fun he => hf (he.trans hp)))]
        exact ih
      · rw [if_neg (beq_false_not a k hp), lookup_cons]
        by_cases hfa : f = a
        · rw [if_pos (beq_iff_eq.mpr hfa), if_pos (beq_iff_eq.mpr hfa)]
        · rw [if_neg (beq_false_not f a hfa), if_neg (beq_false_not f a hfa)]
          exact ih

theorem lookup_append_single (t : Track) (k v : String)
    (h : List.lookup k t = none) :
    List.lookup k (t ++ [(k, v)]) = some v := by
  induction t with
  | nil =>
      show List.lookup k [(k, v)] = some v
      rw [lookup_cons, if_pos (beq_iff_eq.mpr rfl)]
  | cons p rest ih =>
      obtain ⟨a, b⟩ := p
      rw [List.cons_append, lookup_cons]
      rw [lookup_cons] at h
      by_cases hka : k = a
      · rw [if_pos (beq_iff_eq.mpr hka)] at h
        cases h
      · rw [if_neg (beq_false_not k a hka)] at h
        rw [if_neg (beq_false_not k a hka)]
        exact ih h

theorem lookup_append_single_other (t : Track) (k v f : String) (hf : f ≠ k) :
    List.lookup f (t ++ [(k, v)]) = List.lookup f t := by
  induction t with
  | nil =>
      show List.lookup f [(k, v)] = none
      rw [lookup_cons, if_neg (beq_false_not f k hf)]
      rfl
  | cons p rest ih =>
      obtain ⟨a, b⟩ := p
      rw [List.cons_append, lookup_cons, lookup_cons]
      by_cases hfa : f = a
      · rw [if_pos (beq_iff_eq.mpr hfa), if_pos (beq_iff_eq.mpr hfa)]
      · rw [if_neg (beq_false_not f a hfa), if_neg (beq_false_not f a hfa)]
        exact ih

theorem trackGet_tagTrack_same (t : Track) (pl : String) :
    trackGet (tagTrack t pl) "playlist" = pl := by
  unfold tagTrack dictSet trackGet
  split
  · rename_i h
    rw [lookup_map_replace, if_pos h]
    rfl
  · rename_i h
    rw [lookup_append_single]
    · rfl
    · cases hl : List.lookup "playlist" t
      · rfl
      · rw [hl] at h
        cases h rfl

theorem trackGet_tagTrack_other (t : Track) (pl f : String) (hf : f ≠ "playlist") :
    trackGet (tagTrack t pl) f = trackGet t f := by
  unfold tagTrack dictSet trackGet
  split
  · rw [lookup_map_replace_other t "playlist" pl f hf]
  · rw [lookup_append_single_other t "playlist" pl f hf]

theorem foldl_append_tag (g : Track → Track) (ts : List Track) :
    ∀ acc : List Track, ts.foldl (fun acc t => acc ++ [g t]) acc = acc ++ ts.map g := by
  induction ts with
  | nil => intro acc; simp
  | cons t rest ih =>
      intro acc
      rw [List.foldl_cons, ih, List.map_cons, List.append_assoc]
      rfl

theorem load_foldl_eq (files : List JsonFile) :
    ∀ acc : List Track,
      files.foldl (fun acc f =>
        match f.content with
        | .trackList ts => ts.foldl (fun acc t => acc ++ [tagTrack t f.stem]) acc
        | _ => acc) acc =
      acc ++ (files.map fun f =>
        match f.content with
        | .trackList ts => ts.map fun t => tagTrack t f.stem
        | _ => []).flatten := by
  induction files with
  | nil => intro acc; simp
  | cons f rest ih =>
      intro acc
      rw [List.foldl_cons, List.map_cons, List.flatten_cons]
      cases hc : f.content with
      | trackList ts =>
          dsimp only
          rw [ih, foldl_append_tag, List.append_assoc]
      | malformed =>
          dsimp only
          rw [ih]
          simp
      | nonList =>
          dsimp only
          rw [ih]
          simp

/-- C8: the Corpus Loader returns the tracks of every file whose content is a
JSON list, concatenated in file order then in-file order, each track tagged
with the file's stem in its `playlist` field (other fields untouched); files
that fail to parse or are not top-level lists contribute nothing, and a
nonexistent directory (`none`) or one with no JSON files yields `[]`. -/
theorem load_tracks_spec :
    load_tracks_from_json_files none = [] ∧
    load_tracks_from_json_files (some []) = [] ∧
    (∀ files, load_tracks_from_json_files (some files) =
      (files.map fun f =>
        match f.content with
        | .trackList ts => ts.map fun t => tagTrack t f.stem
        | _ => []).flatten) ∧
    (∀ t pl, trackGet (tagTrack t pl) "playlist" = pl) ∧
    (∀ t pl f, f ≠ "playlist" → trackGet (tagTrack t pl) f = trackGet t f) := by
  refine ⟨rfl, rfl, ?_, trackGet_tagTrack_same, ?_⟩
  · intro files
    show files.foldl _ [] = _
    rw [load_foldl_eq files []]
    rfl
  · intro t pl f hf
    exact trackGet_tagTrack_other t pl f hf

/-- Witness for C8. -/
theorem load_tracks_spec_witness :
    load_tracks_from_json_files
      (some [⟨"pl1", .trackList [[("name", "t1")]]⟩, ⟨"bad", .malformed⟩]) =
      ([[("name", "t1"), ("playlist", "pl1")]] : List Track) ∧
    trackGet (tagTrack [("name", "x")] "pl") "name" =
      trackGet [("name", "x")] "name" := by
  refine ⟨?_, load_tracks_spec.2.2.2.2 [("name", "x")] "pl" "name" (by decide)⟩
  rw [load_tracks_spec.2.2.1]
  decide

end ThemeMatcher
